import Mathlib

/-!
Shallow embedding of the WhatsMiner chip-map analysis engine
(`src/analysis.rs`) and the topology/inference code of the presentation
layer (`src/ui.rs`).

Modelling conventions:
- Rust `usize` becomes `Nat` (saturating_sub is Nat subtraction),
  `i32`/`i64` become `Int`.
- `f32`/`f64` arithmetic is modelled by exact rational arithmetic `ℚ`;
  the one operation that leaves `ℚ` (the square root taken in
  `compute_mean_std`) is abstracted as a function parameter `sqrt`,
  since every property proved here is independent of its values.
- `Vec::get` / bounds checks become `List` indexing with `·[·]?`.
- Only the fields of `Chip` and `Slot` that the analysis reads
  (temperature, nonce count, the chip list) are kept; the remaining
  fields are cosmetic and never inspected by the embedded functions.
-/

/-- A chip reading (fields of `models::Chip` used by the analysis). -/
structure Chip where
  id : Int
  temp : Int
  nonce : Int
deriving DecidableEq, Repr

instance : Inhabited Chip := ⟨⟨0, 0, 0⟩⟩

/-- A board (`models::Slot`): an ordered sequence of chip readings. -/
structure Slot where
  id : Int
  chips : List Chip
deriving DecidableEq, Repr

instance : Inhabited Slot := ⟨⟨0, []⟩⟩

/-- Per-chip analysis record (`analysis::ChipAnalysis`); `Default` derives
all-zero fields in the source. -/
structure ChipAnalysis where
  gradient : ℚ
  cross_slot_zscore : ℚ
  nonce_deficit : ℚ
deriving DecidableEq, Repr

instance : Inhabited ChipAnalysis := ⟨⟨0, 0, 0⟩⟩

/-- Rust `usize::div_ceil`: `a / b` rounded up (junk at `b = 0`, never
called that way by the embedded code). -/
def div_ceil (a b : ℕ) : ℕ :=
  a / b + if a % b = 0 then 0 else 1

/-- Source: `num_domains = chips.len().div_ceil(chips_per_domain)`
(`analysis.rs` line 70; the same formula appears in `ui.rs`). -/
def num_domains (chip_count cpd : ℕ) : ℕ :=
  div_ceil chip_count cpd

/-- Snake-pattern section split (`analysis.rs` lines 73-74):
`remaining = num_domains.saturating_sub(1)`;
`bottom_domains = 1 + remaining / 2`. -/
def bottom_domains (chip_count cpd : ℕ) : ℕ :=
  1 + (num_domains chip_count cpd - 1) / 2

/-- Source: `is_top_section = domain >= bottom_domains` for the chip at flat
index `idx`, whose domain is `idx / cpd` (`analysis.rs` lines 83-87). -/
def is_top_section (chip_count cpd idx : ℕ) : Bool :=
  bottom_domains chip_count cpd ≤ idx / cpd

/-- The temperature at flat index `idx`, as a zero-or-one element list:
the source pushes `chips[idx].temp` only `if idx < chips.len()`. -/
def temp_at (chips : List Chip) (idx : ℕ) : List Int :=
  match chips[idx]? with
  | some c => [c.temp]
  | none => []

/-- Embeds `analysis::get_upstream_neighbor_temps` (lines 134-185): the
airflow-aware neighbor temperatures of the chip at `(domain, row)`.
Pushes, in source order: the upstream-domain chip of the same row
(domain + 1 in the top section if it exists, domain - 1 in the bottom
section if `domain > 0`), then row - 1 and row + 1 within the domain;
each candidate is kept only when its flat index is in range. -/
def get_upstream_neighbor_temps (chips : List Chip) (cpd nd domain row : ℕ)
    (is_top : Bool) : List Int :=
  (if is_top then
    (if domain + 1 < nd then temp_at chips ((domain + 1) * cpd + row) else [])
  else
    (if 0 < domain then temp_at chips ((domain - 1) * cpd + row) else []))
  ++ (if 0 < row then temp_at chips (domain * cpd + (row - 1)) else [])
  ++ (if row + 1 < cpd then temp_at chips (domain * cpd + (row + 1)) else [])

/-- Embeds `analysis::compute_hot_gradient` (lines 189-200):
`(center - mean neighbors).max 0`, and `0` for no neighbors. -/
def compute_hot_gradient (center : Int) (neighbors : List Int) : ℚ :=
  if neighbors.isEmpty then 0
  else
    max ((center : ℚ) - (neighbors.map (fun t => (t : ℚ))).sum / (neighbors.length : ℚ)) 0

/-- Embeds `analysis::compute_mean_std` (lines 203-221): population mean and
standard deviation (variance divides by `N`, then `sqrt`). The square
root on `f32` is abstracted as the parameter `sqrt`; the source returns
`(0, 0)` for no samples and `(mean, 0)` for one sample without calling
it. -/
def compute_mean_std (sqrt : ℚ → ℚ) (temps : List Int) : ℚ × ℚ :=
  if temps.isEmpty then (0, 0)
  else
    let n : ℚ := (temps.length : ℚ)
    let mean : ℚ := (temps.map (fun t => (t : ℚ))).sum / n
    if temps.length = 1 then (mean, 0)
    else
      let variance : ℚ := (temps.map (fun t => ((t : ℚ) - mean) ^ 2)).sum / n
      (mean, sqrt variance)

/-- Embeds `analysis::compute_hot_zscore` (lines 225-241): one-sided z-score.
`deviation ≤ 0` scores 0; `std < 0.5` scores `min deviation 3`;
otherwise `deviation / std`. -/
def compute_hot_zscore (temp : Int) (mean std : ℚ) : ℚ :=
  let deviation := (temp : ℚ) - mean
  if deviation ≤ 0 then 0
  else if std < 1 / 2 then min deviation 3
  else deviation / std

/-- Embeds `analysis::compute_slot_avg_nonce` (lines 244-250): the 64-bit
integer sum of the nonce counts divided (as a float, here `ℚ`) by the
chip count; `0` for an empty board. -/
def compute_slot_avg_nonce (chips : List Chip) : ℚ :=
  if chips.isEmpty then 0
  else (((chips.map Chip.nonce).sum : ℤ) : ℚ) / (chips.length : ℚ)

/-- Embeds `analysis::compute_nonce_deficit` (lines 254-269): percentage
shortfall of a chip below the board average. -/
def compute_nonce_deficit (chip_nonce : Int) (slot_avg : ℚ) : ℚ :=
  if slot_avg ≤ 0 then 0
  else if slot_avg ≤ (chip_nonce : ℚ) then 0
  else (slot_avg - (chip_nonce : ℚ)) / slot_avg * 100

/-- Embeds `analysis::analyze_single_slot` (lines 59-117). The topology values
that the source binds with `let` inside the function body are the named
definitions `num_domains`, `bottom_domains` and `is_top_section` above,
copied verbatim from those bindings. -/
def analyze_single_slot (slot : Slot) (cpd : ℕ)
    (cross_slot_stats : List (ℚ × ℚ)) : List ChipAnalysis :=
  let chips := slot.chips
  if chips.isEmpty ∨ cpd = 0 then
    List.replicate chips.length default
  else
    let nd := num_domains chips.length cpd
    let slot_avg_nonce := compute_slot_avg_nonce chips
    chips.enum.map (fun p =>
      let idx := p.1
      let chip := p.2
      let domain := idx / cpd
      let row := idx % cpd
      let is_top := is_top_section chips.length cpd idx
      let neighbors := get_upstream_neighbor_temps chips cpd nd domain row is_top
      let gradient := compute_hot_gradient chip.temp neighbors
      let zscore :=
        match cross_slot_stats[idx]? with
        | some ms => compute_hot_zscore chip.temp ms.1 ms.2
        | none => 0
      let deficit := compute_nonce_deficit chip.nonce slot_avg_nonce
      ChipAnalysis.mk gradient zscore deficit)

/-- Source: `slots.iter().map(|s| s.chips.len()).max().unwrap_or(0)`
(`analysis.rs` line 33). -/
def max_chips (slots : List Slot) : ℕ :=
  ((slots.map (fun s => s.chips.length)).max?).getD 0

/-- The cross-slot temperature matrix (`analysis.rs` lines 36-43):
`temps_by_position[p]` lists the temperature at flat index `p` of every
board that has a chip there, in board order. -/
def temps_by_position (slots : List Slot) : List (List Int) :=
  (List.range (max_chips slots)).map (fun p =>
    slots.filterMap (fun s => (s.chips[p]?).map Chip.temp))

/-- The per-position statistics table (`analysis.rs` lines 46-49). -/
def cross_slot_stats (sqrt : ℚ → ℚ) (slots : List Slot) : List (ℚ × ℚ) :=
  (temps_by_position slots).map (compute_mean_std sqrt)

/-- Embeds `analysis::analyze_all_slots` (lines 27-56). -/
def analyze_all_slots (sqrt : ℚ → ℚ) (slots : List Slot) (cpd : ℕ) :
    List (List ChipAnalysis) :=
  if slots.isEmpty then []
  else
    slots.map (fun s => analyze_single_slot s cpd (cross_slot_stats sqrt slots))

/-- Embeds `ui::infer_chips_per_domain` (`ui.rs` lines 218-237): first pass
over candidates `[3, 2, 4, 5, 6]` keeping divisors with a domain count
in `[20, 100]`; second pass over `[2, 3, 4, 5, 6]` keeping any divisor;
default 3. -/
def infer_chips_per_domain (chip_count : ℕ) : ℕ :=
  match [3, 2, 4, 5, 6].find? (fun cpd =>
      chip_count % cpd == 0 &&
      decide (20 ≤ chip_count / cpd) && decide (chip_count / cpd ≤ 100)) with
  | some cpd => cpd
  | none =>
    match [2, 3, 4, 5, 6].find? (fun cpd => chip_count % cpd == 0) with
    | some cpd => cpd
    | none => 3

/-- Embeds the `ui::slot_grid` domain count (`ui.rs` lines 247-251):
`div_ceil` when `chips_per_domain > 0`, else 1. -/
def ui_domains (chip_count cpd : ℕ) : ℕ :=
  if 0 < cpd then div_ceil chip_count cpd else 1

/-- Embeds the `ui::slot_grid` section split (`ui.rs` lines 255-256). -/
def ui_bottom_domains (chip_count cpd : ℕ) : ℕ :=
  1 + (ui_domains chip_count cpd - 1) / 2

/-- Embeds the `ui::slot_grid` top-section size (`ui.rs` line 257):
`top_domains = remaining - remaining / 2`. -/
def ui_top_domains (chip_count cpd : ℕ) : ℕ :=
  (ui_domains chip_count cpd - 1) - (ui_domains chip_count cpd - 1) / 2

/-- The flat indices of the neighbor candidates as the spec describes
them: the same-row chip of the upstream domain (domain + 1 in the top
section when it exists, domain - 1 in the bottom section when
`domain > 0`), then the row neighbors within the same domain. Stated
from the words of the spec, to be compared with
`get_upstream_neighbor_temps`. -/
def upstream_neighbor_idxs (cpd nd domain row : ℕ) (is_top : Bool) : List ℕ :=
  (if is_top then
    (if domain + 1 < nd then [(domain + 1) * cpd + row] else [])
  else
    (if 0 < domain then [(domain - 1) * cpd + row] else []))
  ++ (if 0 < row then [domain * cpd + (row - 1)] else [])
  ++ (if row + 1 < cpd then [domain * cpd + (row + 1)] else [])

/-- The chips-per-domain inference as the spec words it: the smallest
candidate divisor (increasing order 2, 3, 4, 5, 6) that divides evenly
with a domain count in [20, 100]; otherwise the first candidate of the
listed order 3, 2, 4, 5, 6 that divides evenly; otherwise 3. Stated
from the words of the spec, to be compared with
`infer_chips_per_domain`. -/
def claimed_infer_chips_per_domain (chip_count : ℕ) : ℕ :=
  match [2, 3, 4, 5, 6].find? (fun cpd =>
      chip_count % cpd == 0 &&
      decide (20 ≤ chip_count / cpd) && decide (chip_count / cpd ≤ 100)) with
  | some cpd => cpd
  | none =>
    match [3, 2, 4, 5, 6].find? (fun cpd => chip_count % cpd == 0) with
    | some cpd => cpd
    | none => 3

/-! ## Helper lemmas -/

lemma div_ceil_bounds (a b : ℕ) (hb : 0 < b) (ha : 0 < a) :
    (div_ceil a b - 1) * b < a ∧ a ≤ div_ceil a b * b := by
  have h1 : b * (a / b) + a % b = a := Nat.div_add_mod a b
  have hmod : a % b < b := Nat.mod_lt a hb
  unfold div_ceil
  by_cases h : a % b = 0
  · have hd1 : 1 ≤ a / b :=
      Nat.div_pos (Nat.le_of_dvd ha (Nat.dvd_of_mod_eq_zero h)) hb
    rw [if_pos h]
    have e2 : (a / b + 0 - 1) * b = b * (a / b) - b := by
      rw [Nat.add_zero, Nat.sub_mul, one_mul, mul_comm]
    have e3 : (a / b + 0) * b = b * (a / b) := by rw [Nat.add_zero, mul_comm]
    rw [e2, e3]
    generalize b * (a / b) = n at h1
    omega
  · rw [if_neg h]
    have e2 : (a / b + 1 - 1) * b = b * (a / b) := by
      rw [Nat.add_sub_cancel, mul_comm]
    have e3 : (a / b + 1) * b = b * (a / b) + b := by
      rw [Nat.add_mul, one_mul, mul_comm]
    rw [e2, e3]
    generalize b * (a / b) = n at h1
    omega

lemma div_ceil_pos (a b : ℕ) (hb : 0 < b) (ha : 0 < a) : 0 < div_ceil a b := by
  have hd1 : a % b = 0 → 1 ≤ a / b := fun h =>
    Nat.div_pos (Nat.le_of_dvd ha (Nat.dvd_of_mod_eq_zero h)) hb
  unfold div_ceil
  by_cases h : a % b = 0
  · rw [if_pos h]; have := hd1 h; omega
  · rw [if_neg h]; exact Nat.succ_pos _

lemma div_ceil_eq_ceil (a b : ℕ) (hb : 0 < b) (ha : 0 < a) :
    div_ceil a b = ⌈(a : ℚ) / (b : ℚ)⌉₊ := by
  have hb' : (0 : ℚ) < (b : ℚ) := by exact_mod_cast hb
  obtain ⟨h1, h2⟩ := div_ceil_bounds a b hb ha
  have hq : div_ceil a b ≠ 0 := (div_ceil_pos a b hb ha).ne'
  symm
  rw [Nat.ceil_eq_iff hq]
  constructor
  · rw [lt_div_iff₀ hb']
    exact_mod_cast h1
  · rw [div_le_iff₀ hb']
    exact_mod_cast h2

/-! ## Claim theorems -/

/-- C1: with a positive chip count and positive chips-per-domain, the
analysis maps flat index `idx` to domain `idx / cpd` (and row
`idx % cpd`), computes `num_domains` as the ceiling of `n / cpd`,
splits the sections as `bottom_domains = 1 + (num_domains - 1) / 2`
with the subtraction floored at 0, so the first domain is always in the
bottom section and an odd leftover domain goes to the bottom; a chip is
classified top-section exactly when its domain is at least
`bottom_domains`. -/
theorem C1_topology_split (n cpd : ℕ) (hn : 0 < n) (hcpd : 0 < cpd) :
    num_domains n cpd = ⌈(n : ℚ) / (cpd : ℚ)⌉₊ ∧
    bottom_domains n cpd = 1 + (num_domains n cpd - 1) / 2 ∧
    0 < bottom_domains n cpd ∧
    (∀ idx, idx < cpd → is_top_section n cpd idx = false) ∧
    (∀ idx, is_top_section n cpd idx = true ↔
      bottom_domains n cpd ≤ idx / cpd) ∧
    bottom_domains n cpd ≤ num_domains n cpd ∧
    num_domains n cpd - bottom_domains n cpd ≤ bottom_domains n cpd ∧
    (Odd (num_domains n cpd) →
      bottom_domains n cpd = (num_domains n cpd - bottom_domains n cpd) + 1) := by
  have hnd : 0 < num_domains n cpd := div_ceil_pos n cpd hcpd hn
  refine ⟨div_ceil_eq_ceil n cpd hcpd hn, rfl, ?_, ?_, ?_, ?_, ?_, ?_⟩
  · unfold bottom_domains
    omega
  · intro idx hidx
    unfold is_top_section
    rw [Nat.div_eq_of_lt hidx]
    exact decide_eq_false (by unfold bottom_domains; omega)
  · intro idx
    exact ⟨fun h => of_decide_eq_true h, fun h => decide_eq_true h⟩
  · unfold bottom_domains
    omega
  · unfold bottom_domains
    omega
  · rintro ⟨k, hk⟩
    unfold bottom_domains
    omega

/-- C1 witness: the theorem applied at a 9-chip board with 3 chips per
domain. -/
theorem C1_topology_split_witness :
    num_domains 9 3 = ⌈(9 : ℚ) / (3 : ℚ)⌉₊ ∧
    0 < bottom_domains 9 3 ∧
    is_top_section 9 3 2 = false ∧
    (is_top_section 9 3 8 = true ↔ bottom_domains 9 3 ≤ 8 / 3) := by
  obtain ⟨h1, _, h3, h4, h5, _⟩ := C1_topology_split 9 3 (by norm_num) (by norm_num)
  exact ⟨h1, h3, h4 2 (by norm_num), h5 8⟩

/-- C9: for every chip count and positive chips-per-domain, the
presentation layer (`ui::slot_grid`) computes exactly the same domain
count and section split as the analysis engine. -/
theorem C9_ui_matches_analysis (n cpd : ℕ) (hcpd : 0 < cpd) :
    ui_domains n cpd = num_domains n cpd ∧
    ui_bottom_domains n cpd = bottom_domains n cpd ∧
    ui_top_domains n cpd = num_domains n cpd - bottom_domains n cpd := by
  have h : ui_domains n cpd = num_domains n cpd := by
    unfold ui_domains num_domains
    rw [if_pos hcpd]
  refine ⟨h, ?_, ?_⟩
  · unfold ui_bottom_domains bottom_domains
    rw [h]
  · unfold ui_top_domains bottom_domains
    rw [h]
    omega

/-- C9 witness: the theorem applied at 10 chips, 3 per domain. -/
theorem C9_ui_matches_analysis_witness :
    ui_domains 10 3 = num_domains 10 3 ∧
    ui_bottom_domains 10 3 = bottom_domains 10 3 ∧
    ui_top_domains 10 3 = num_domains 10 3 - bottom_domains 10 3 :=
  C9_ui_matches_analysis 10 3 (by norm_num)

/-- C8 counterexample: the claim says the smallest qualifying candidate
divisor is preferred, and that the second stage takes the first
candidate of the listed order 3, 2, 4, 5, 6. For 120 chips the smallest
qualifying divisor is 2 (120 / 2 = 60 lies in [20, 100]) yet the code
returns 3; for 6 chips no candidate qualifies in the first stage and 3
(first of the listed order) divides 6 evenly, yet the code returns 2. -/
theorem C8_infer_counterexample :
    infer_chips_per_domain 120 = 3 ∧
    (120 % 2 = 0 ∧ 20 ≤ 120 / 2 ∧ 120 / 2 ≤ 100 ∧ 2 < 3) ∧
    claimed_infer_chips_per_domain 120 = 2 ∧
    infer_chips_per_domain 6 = 2 ∧
    (∀ q ∈ [3, 2, 4, 5, 6], ¬(6 % q = 0 ∧ 20 ≤ 6 / q ∧ 6 / q ≤ 100)) ∧
    6 % 3 = 0 ∧
    claimed_infer_chips_per_domain 6 = 3 := by
  decide

/-- C8 (amended): the fallback inference returns the first candidate in
the order 3, 2, 4, 5, 6 that divides the chip count evenly with a
domain count in [20, 100]; when none qualifies, the first candidate in
increasing order 2, 3, 4, 5, 6 that divides evenly; when no candidate
divides evenly, 3. -/
theorem C8_infer_amended (n : ℕ) :
    (∀ c, [3, 2, 4, 5, 6].find? (fun cpd =>
        n % cpd == 0 && decide (20 ≤ n / cpd) && decide (n / cpd ≤ 100)) = some c →
      infer_chips_per_domain n = c) ∧
    ([3, 2, 4, 5, 6].find? (fun cpd =>
        n % cpd == 0 && decide (20 ≤ n / cpd) && decide (n / cpd ≤ 100)) = none →
      ∀ c, [2, 3, 4, 5, 6].find? (fun cpd => n % cpd == 0) = some c →
        infer_chips_per_domain n = c) ∧
    ([3, 2, 4, 5, 6].find? (fun cpd =>
        n % cpd == 0 && decide (20 ≤ n / cpd) && decide (n / cpd ≤ 100)) = none →
      [2, 3, 4, 5, 6].find? (fun cpd => n % cpd == 0) = none →
      infer_chips_per_domain n = 3) := by
  refine ⟨?_, ?_, ?_⟩
  · intro c h
    unfold infer_chips_per_domain
    rw [h]
  · intro h1 c h2
    unfold infer_chips_per_domain
    rw [h1, h2]
  · intro h1 h2
    unfold infer_chips_per_domain
    rw [h1, h2]

/-- C8 witness: the amended theorem applied at 120, 6 and 7 chips. -/
theorem C8_infer_amended_witness :
    infer_chips_per_domain 120 = 3 ∧
    infer_chips_per_domain 6 = 2 ∧
    infer_chips_per_domain 7 = 3 :=
  ⟨(C8_infer_amended 120).1 3 (by decide),
   (C8_infer_amended 6).2.1 (by decide) 2 (by decide),
   (C8_infer_amended 7).2.2 (by decide) (by decide)⟩

/-- C3: the gradient is `max 0 (center - mean of the neighbors)`, is 0
when there are no neighbors, is 0 for a chip at or below the mean of
its neighbors, and is never negative. -/
theorem C3_gradient (center : Int) (neighbors : List Int) :
    (neighbors = [] → compute_hot_gradient center neighbors = 0) ∧
    (neighbors ≠ [] →
      compute_hot_gradient center neighbors =
        max 0 ((center : ℚ) -
          (neighbors.map (fun t => (t : ℚ))).sum / (neighbors.length : ℚ))) ∧
    (neighbors ≠ [] →
      (center : ℚ) ≤ (neighbors.map (fun t => (t : ℚ))).sum / (neighbors.length : ℚ) →
      compute_hot_gradient center neighbors = 0) ∧
    0 ≤ compute_hot_gradient center neighbors := by
  unfold compute_hot_gradient
  by_cases h : neighbors.isEmpty
  · rw [if_pos h]
    exact ⟨fun _ => rfl, fun hne => absurd (List.isEmpty_iff.mp h) hne,
      fun hne => absurd (List.isEmpty_iff.mp h) hne, le_refl 0⟩
  · rw [if_neg h]
    refine ⟨fun he => absurd he (by simpa using h), fun _ => max_comm _ _, ?_, le_max_right _ _⟩
    intro _ hle
    rw [max_eq_right (by linarith)]

/-- C3 witness: the theorem applied at center 7 with neighbors [3, 5]
and at the empty neighbor list. -/
theorem C3_gradient_witness :
    0 ≤ compute_hot_gradient 7 [3, 5] ∧ compute_hot_gradient 7 [] = 0 :=
  ⟨(C3_gradient 7 [3, 5]).2.2.2, (C3_gradient 7 []).1 rfl⟩

/-- C5: the one-sided cross-slot z-score is 0 for a deviation at most
0, `min deviation 3` when the standard deviation is below 0.5,
`deviation / std` otherwise, and is never negative. -/
theorem C5_zscore (temp : Int) (mean std : ℚ) :
    ((temp : ℚ) - mean ≤ 0 → compute_hot_zscore temp mean std = 0) ∧
    (0 < (temp : ℚ) - mean → std < 1 / 2 →
      compute_hot_zscore temp mean std = min ((temp : ℚ) - mean) 3) ∧
    (0 < (temp : ℚ) - mean → ¬std < 1 / 2 →
      compute_hot_zscore temp mean std = ((temp : ℚ) - mean) / std) ∧
    0 ≤ compute_hot_zscore temp mean std := by
  simp only [compute_hot_zscore]
  refine ⟨fun h => by rw [if_pos h],
    fun h1 h2 => by rw [if_neg (not_le.mpr h1), if_pos h2],
    fun h1 h2 => by rw [if_neg (not_le.mpr h1), if_neg h2], ?_⟩
  split_ifs with h1 h2
  · exact le_refl (0 : ℚ)
  · exact le_min (lt_of_not_le h1).le (by norm_num)
  · have hd : (0 : ℚ) < (temp : ℚ) - mean := lt_of_not_le h1
    have hs : (0 : ℚ) < std := lt_of_lt_of_le (by norm_num) (not_lt.mp h2)
    positivity

/-- C5 witness: the theorem applied at temperature 60, mean 50, and
standard deviations 0 and 4. -/
theorem C5_zscore_witness :
    compute_hot_zscore 60 50 0 = min ((60 : ℚ) - 50) 3 ∧
    compute_hot_zscore 60 50 4 = ((60 : ℚ) - 50) / 4 ∧
    compute_hot_zscore 40 50 4 = 0 ∧
    0 ≤ compute_hot_zscore 60 50 4 := by
  refine ⟨(C5_zscore 60 50 0).2.1 (by norm_num) (by norm_num),
    (C5_zscore 60 50 4).2.2.1 (by norm_num) (by norm_num),
    (C5_zscore 40 50 4).1 (by norm_num),
    (C5_zscore 60 50 4).2.2.2⟩

/-- C6 counterexample: the deficit is not bounded by 100 for every
signed 64-bit nonce count. On a board with nonce counts -100 and 300
the average is 100, and the first chip scores
(100 - (-100)) / 100 * 100 = 200. -/
theorem C6_deficit_counterexample :
    compute_slot_avg_nonce [⟨0, 50, -100⟩, ⟨1, 50, 300⟩] = 100 ∧
    compute_nonce_deficit (-100)
      (compute_slot_avg_nonce [⟨0, 50, -100⟩, ⟨1, 50, 300⟩]) = 200 ∧
    ¬compute_nonce_deficit (-100)
      (compute_slot_avg_nonce [⟨0, 50, -100⟩, ⟨1, 50, 300⟩]) ≤ 100 := by
  refine ⟨by norm_num [compute_slot_avg_nonce], ?_, ?_⟩ <;>
    norm_num [compute_slot_avg_nonce, compute_nonce_deficit]

/-- C6 (amended): the board average is the integer nonce sum divided by
the chip count; the deficit is 0 for a nonpositive average or a chip at
or above the average and `(avg - nonce) / avg * 100` otherwise; it is
never negative, and it lies in [0, 100] provided the nonce count of the
chip is nonnegative (for a negative 64-bit nonce count it can exceed
100). -/
theorem C6_nonce_deficit (chips : List Chip) (chip_nonce : Int) (slot_avg : ℚ) :
    (chips ≠ [] → compute_slot_avg_nonce chips =
      (((chips.map Chip.nonce).sum : ℤ) : ℚ) / (chips.length : ℚ)) ∧
    (slot_avg ≤ 0 → compute_nonce_deficit chip_nonce slot_avg = 0) ∧
    (0 < slot_avg → slot_avg ≤ (chip_nonce : ℚ) →
      compute_nonce_deficit chip_nonce slot_avg = 0) ∧
    (0 < slot_avg → (chip_nonce : ℚ) < slot_avg →
      compute_nonce_deficit chip_nonce slot_avg =
        (slot_avg - (chip_nonce : ℚ)) / slot_avg * 100) ∧
    0 ≤ compute_nonce_deficit chip_nonce slot_avg ∧
    (0 ≤ chip_nonce → compute_nonce_deficit chip_nonce slot_avg ≤ 100) := by
  refine ⟨?_, ?_, ?_, ?_, ?_, ?_⟩
  · intro h
    rw [compute_slot_avg_nonce, if_neg (by simpa using h)]
  · intro h
    rw [compute_nonce_deficit, if_pos h]
  · intro h1 h2
    rw [compute_nonce_deficit, if_neg (not_le.mpr h1), if_pos h2]
  · intro h1 h2
    rw [compute_nonce_deficit, if_neg (not_le.mpr h1), if_neg (not_le.mpr h2)]
  · rw [compute_nonce_deficit]
    split_ifs with h1 h2
    · exact le_refl (0 : ℚ)
    · exact le_refl (0 : ℚ)
    · have ha : (0 : ℚ) < slot_avg := lt_of_not_le h1
      have hn : (chip_nonce : ℚ) < slot_avg := lt_of_not_le h2
      have : (0 : ℚ) ≤ (slot_avg - (chip_nonce : ℚ)) / slot_avg :=
        div_nonneg (by linarith) ha.le
      linarith
  · intro hpos
    rw [compute_nonce_deficit]
    split_ifs with h1 h2
    · norm_num
    · norm_num
    · have ha : (0 : ℚ) < slot_avg := lt_of_not_le h1
      have hn : (0 : ℚ) ≤ (chip_nonce : ℚ) := by exact_mod_cast hpos
      have hdiv : (slot_avg - (chip_nonce : ℚ)) / slot_avg ≤ 1 :=
        (div_le_one ha).mpr (by linarith)
      have hd0 : (0 : ℚ) ≤ (slot_avg - (chip_nonce : ℚ)) / slot_avg :=
        div_nonneg (by linarith [lt_of_not_le h2]) ha.le
      nlinarith

/-- C6 witness: the amended theorem applied to a board with nonce
counts 1000, 0, 1000 (the dead chip scores 100) and to nonnegative
concrete inputs. -/
theorem C6_nonce_deficit_witness :
    compute_slot_avg_nonce [⟨0, 50, 1000⟩, ⟨1, 50, 0⟩, ⟨2, 50, 1000⟩] =
      ((2000 : ℚ)) / 3 ∧
    compute_nonce_deficit 0 (2000 / 3) = ((2000 : ℚ) / 3 - 0) / (2000 / 3) * 100 ∧
    0 ≤ compute_nonce_deficit 0 (2000 / 3) ∧
    compute_nonce_deficit 0 (2000 / 3) ≤ 100 := by
  have h := C6_nonce_deficit [⟨0, 50, 1000⟩, ⟨1, 50, 0⟩, ⟨2, 50, 1000⟩] 0 (2000 / 3)
  refine ⟨?_, ?_, h.2.2.2.2.1, h.2.2.2.2.2 (by norm_num)⟩
  · have := h.1 (by simp)
    rw [this]
    norm_num
  · have := h.2.2.2.1 (by norm_num) (by norm_num)
    simpa using this

/-- Helper: a kept-or-dropped candidate equals the filterMap of its
singleton index list. -/
lemma filterMap_temp_if (chips : List Chip) (c : Prop) [Decidable c] (i : ℕ) :
    (if c then temp_at chips i else []) =
      List.filterMap (fun j => (chips[j]?).map Chip.temp) (if c then [i] else []) := by
  split
  · unfold temp_at
    cases h : chips[i]? <;> simp [h]
  · rfl

/-- C2: the neighbor temperatures of the chip at `(domain, row)` are
exactly those of the upstream-domain chip of the same row (domain - 1
for a bottom-section chip when `domain > 0`, domain + 1 for a
top-section chip when it is below `num_domains`) and of the row
neighbors `row - 1` and `row + 1` within the domain; every candidate
whose flat index is out of range is silently dropped, at most 3
neighbor temperatures result, and the downstream-domain index is never
among the candidates. -/
theorem C2_neighbors (chips : List Chip) (cpd nd domain row : ℕ) (is_top : Bool)
    (hcpd : 0 < cpd) (hrow : row < cpd) :
    get_upstream_neighbor_temps chips cpd nd domain row is_top =
      (upstream_neighbor_idxs cpd nd domain row is_top).filterMap
        (fun i => (chips[i]?).map Chip.temp) ∧
    (get_upstream_neighbor_temps chips cpd nd domain row is_top).length ≤ 3 ∧
    (is_top = false →
      (domain + 1) * cpd + row ∉ upstream_neighbor_idxs cpd nd domain row is_top) ∧
    (is_top = true → 0 < domain →
      (domain - 1) * cpd + row ∉ upstream_neighbor_idxs cpd nd domain row is_top) := by
  have heq : get_upstream_neighbor_temps chips cpd nd domain row is_top =
      (upstream_neighbor_idxs cpd nd domain row is_top).filterMap
        (fun i => (chips[i]?).map Chip.temp) := by
    unfold get_upstream_neighbor_temps upstream_neighbor_idxs
    rw [List.filterMap_append, List.filterMap_append]
    cases is_top
    · rw [if_neg Bool.false_ne_true, if_neg Bool.false_ne_true,
        filterMap_temp_if, filterMap_temp_if, filterMap_temp_if]
    · rw [if_pos rfl, if_pos rfl,
        filterMap_temp_if, filterMap_temp_if, filterMap_temp_if]
  refine ⟨heq, ?_, ?_, ?_⟩
  · rw [heq]
    calc ((upstream_neighbor_idxs cpd nd domain row is_top).filterMap
          (fun i => (chips[i]?).map Chip.temp)).length
        ≤ (upstream_neighbor_idxs cpd nd domain row is_top).length :=
          List.length_filterMap_le _ _
      _ ≤ 3 := by
          unfold upstream_neighbor_idxs
          split_ifs <;> simp
  · rintro rfl hmem
    unfold upstream_neighbor_idxs at hmem
    rw [if_neg Bool.false_ne_true] at hmem
    have e1 : (domain + 1) * cpd = domain * cpd + cpd := by ring
    rcases List.mem_append.mp hmem with hm | h
    · rcases List.mem_append.mp hm with h | h
      · by_cases hd : 0 < domain
        · rw [if_pos hd] at h
          have e2 : (domain - 1) * cpd + cpd = domain * cpd := by
            have h3 : (domain - 1) * cpd = domain * cpd - cpd := by
              rw [Nat.sub_mul, one_mul]
            have h4 : cpd ≤ domain * cpd := Nat.le_mul_of_pos_left cpd hd
            omega
          simp only [List.mem_singleton] at h
          omega
        · rw [if_neg hd] at h
          exact absurd h (List.not_mem_nil _)
      · by_cases hr : 0 < row
        · rw [if_pos hr] at h
          simp only [List.mem_singleton] at h
          omega
        · rw [if_neg hr] at h
          exact absurd h (List.not_mem_nil _)
    · by_cases hr : row + 1 < cpd
      · rw [if_pos hr] at h
        simp only [List.mem_singleton] at h
        omega
      · rw [if_neg hr] at h
        exact absurd h (List.not_mem_nil _)
  · rintro rfl hd hmem
    unfold upstream_neighbor_idxs at hmem
    rw [if_pos rfl] at hmem
    have e1 : (domain + 1) * cpd = domain * cpd + cpd := by ring
    have e2 : (domain - 1) * cpd + cpd = domain * cpd := by
      have h3 : (domain - 1) * cpd = domain * cpd - cpd := by
        rw [Nat.sub_mul, one_mul]
      have h4 : cpd ≤ domain * cpd := Nat.le_mul_of_pos_left cpd hd
      omega
    rcases List.mem_append.mp hmem with hm | h
    · rcases List.mem_append.mp hm with h | h
      · by_cases hn : domain + 1 < nd
        · rw [if_pos hn] at h
          simp only [List.mem_singleton] at h
          omega
        · rw [if_neg hn] at h
          exact absurd h (List.not_mem_nil _)
      · by_cases hr : 0 < row
        · rw [if_pos hr] at h
          simp only [List.mem_singleton] at h
          omega
        · rw [if_neg hr] at h
          exact absurd h (List.not_mem_nil _)
    · by_cases hr : row + 1 < cpd
      · rw [if_pos hr] at h
        simp only [List.mem_singleton] at h
        omega
      · rw [if_neg hr] at h
        exact absurd h (List.not_mem_nil _)

/-- C2 witness: the theorem applied to a 3-chip board with one chip per
domain, at domain 1 of the bottom section. -/
theorem C2_neighbors_witness :
    get_upstream_neighbor_temps [⟨0, 50, 0⟩, ⟨1, 60, 0⟩, ⟨2, 70, 0⟩] 1 3 1 0 false =
      (upstream_neighbor_idxs 1 3 1 0 false).filterMap
        (fun i => (([⟨0, 50, 0⟩, ⟨1, 60, 0⟩, ⟨2, 70, 0⟩] : List Chip)[i]?).map Chip.temp) ∧
    (get_upstream_neighbor_temps [⟨0, 50, 0⟩, ⟨1, 60, 0⟩, ⟨2, 70, 0⟩] 1 3 1 0 false).length ≤ 3 ∧
    (1 + 1) * 1 + 0 ∉ upstream_neighbor_idxs 1 3 1 0 false :=
  have h := C2_neighbors [⟨0, 50, 0⟩, ⟨1, 60, 0⟩, ⟨2, 70, 0⟩] 1 3 1 0 false
    (by norm_num) (by norm_num)
  ⟨h.1, h.2.1, h.2.2.1 rfl⟩

/-- Helper: collecting the in-range temperatures at position `p` keeps
exactly the boards that have more than `p` chips, in order. -/
lemma filterMap_temp_eq_filter_map (slots : List Slot) (p : ℕ) :
    slots.filterMap (fun s => (s.chips[p]?).map Chip.temp) =
      (slots.filter (fun s => decide (p < s.chips.length))).map
        (fun s => (s.chips.getD p default).temp) := by
  induction slots with
  | nil => rfl
  | cons s ss ih =>
    rw [List.filterMap_cons, List.filter_cons]
    by_cases h : p < s.chips.length
    · have hg : s.chips[p]? = some (s.chips.getD p default) := by
        rw [List.getD_eq_getElem?_getD, List.getElem?_eq_getElem h]
        rfl
      rw [hg]
      simp only [Option.map_some, decide_eq_true h, if_true, List.map_cons]
      rw [ih]
      rfl
    · have hg : s.chips[p]? = none := List.getElem?_eq_none (le_of_not_lt h)
      rw [hg]
      simp only [Option.map_none, decide_eq_false h, if_false]
      exact ih

/-- C4: the cross-slot statistics at position `p` are the mean and
standard deviation of the temperatures at index `p` of exactly those
boards with at least `p + 1` chips (shorter boards contribute no
sample), computed as the population mean and the square root of the
population variance (dividing by N); an empty sample yields (0, 0) and
a one-element sample yields standard deviation 0. -/
theorem C4_cross_slot_statistics (sqrt : ℚ → ℚ) (slots : List Slot) (p : ℕ)
    (hp : p < max_chips slots) :
    (cross_slot_stats sqrt slots)[p]? =
      some (compute_mean_std sqrt
        (slots.filterMap (fun s => (s.chips[p]?).map Chip.temp))) ∧
    slots.filterMap (fun s => (s.chips[p]?).map Chip.temp) =
      (slots.filter (fun s => decide (p < s.chips.length))).map
        (fun s => (s.chips.getD p default).temp) ∧
    compute_mean_std sqrt [] = (0, 0) ∧
    (∀ temps : List Int, temps ≠ [] →
      (compute_mean_std sqrt temps).1 =
        (temps.map (fun t => (t : ℚ))).sum / (temps.length : ℚ)) ∧
    (∀ temps : List Int, temps.length = 1 → (compute_mean_std sqrt temps).2 = 0) ∧
    (∀ temps : List Int, 2 ≤ temps.length →
      (compute_mean_std sqrt temps).2 =
        sqrt ((temps.map (fun t => ((t : ℚ) -
          (temps.map (fun t => (t : ℚ))).sum / (temps.length : ℚ)) ^ 2)).sum /
          (temps.length : ℚ))) := by
  refine ⟨?_, filterMap_temp_eq_filter_map slots p, rfl, ?_, ?_, ?_⟩
  · unfold cross_slot_stats temps_by_position
    rw [List.getElem?_map, List.getElem?_map, List.getElem?_range hp]
    rfl
  · intro temps hne
    have hne2 : ¬(temps.isEmpty = true) := by simpa using hne
    simp only [compute_mean_std, if_neg hne2]
    split <;> rfl
  · intro temps h1
    have hne2 : ¬(temps.isEmpty = true) := by
      cases temps with
      | nil => simp at h1
      | cons a l => simp
    simp only [compute_mean_std, if_neg hne2, if_pos h1]
  · intro temps h2
    have hne2 : ¬(temps.isEmpty = true) := by
      cases temps with
      | nil => simp at h2
      | cons a l => simp
    have hn1 : temps.length ≠ 1 := by omega
    simp only [compute_mean_std, if_neg hne2, if_neg hn1]

/-- C4 witness: the theorem applied at position 0 of a ragged pair of
boards (1 chip and 2 chips). -/
theorem C4_cross_slot_statistics_witness :
    (cross_slot_stats id [⟨0, [⟨0, 90, 0⟩]⟩, ⟨1, [⟨0, 50, 0⟩, ⟨1, 60, 0⟩]⟩])[0]? =
      some (compute_mean_std id
        (([⟨0, [⟨0, 90, 0⟩]⟩, ⟨1, [⟨0, 50, 0⟩, ⟨1, 60, 0⟩]⟩] : List Slot).filterMap
          (fun s => (s.chips[0]?).map Chip.temp))) ∧
    compute_mean_std id [] = (0, 0) ∧
    (compute_mean_std id [7]).2 = 0 :=
  have h := C4_cross_slot_statistics id
    [⟨0, [⟨0, 90, 0⟩]⟩, ⟨1, [⟨0, 50, 0⟩, ⟨1, 60, 0⟩]⟩] 0 (by decide)
  ⟨h.1, h.2.2.1, h.2.2.2.2.1 [7] rfl⟩

/-- Helper: a single-slot analysis always has one record per chip. -/
lemma analyze_single_slot_length (s : Slot) (cpd : ℕ) (stats : List (ℚ × ℚ)) :
    (analyze_single_slot s cpd stats).length = s.chips.length := by
  simp only [analyze_single_slot]
  split
  · exact List.length_replicate _ _
  · rw [List.length_map, List.enum_length]

/-- Helper: with no chips or zero chips-per-domain a slot yields
all-zero records. -/
lemma analyze_single_slot_default (s : Slot) (cpd : ℕ) (stats : List (ℚ × ℚ))
    (h : cpd = 0 ∨ s.chips = []) :
    analyze_single_slot s cpd stats =
      List.replicate s.chips.length (ChipAnalysis.mk 0 0 0) := by
  have hcond : s.chips.isEmpty = true ∨ cpd = 0 := by
    rcases h with h | h
    · exact Or.inr h
    · exact Or.inl (by simp [h])
  simp only [analyze_single_slot, if_pos hcond]
  rfl

/-- C7: the orchestrator is total and shape-preserving: it returns one
inner list per input slot in input order, each of the input slot chip
count length (an empty slot list yields an empty output), and whenever
`chips_per_domain = 0` or a slot has no chips every record emitted for
that slot is the all-zero default. -/
theorem C7_orchestrator_total (sqrt : ℚ → ℚ) (slots : List Slot) (cpd : ℕ) :
    (analyze_all_slots sqrt slots cpd).length = slots.length ∧
    (∀ i : ℕ, ((analyze_all_slots sqrt slots cpd)[i]?).map List.length =
      (slots[i]?).map (fun s => s.chips.length)) ∧
    (∀ (i : ℕ) (s : Slot), slots[i]? = some s → (cpd = 0 ∨ s.chips = []) →
      (analyze_all_slots sqrt slots cpd)[i]? =
        some (List.replicate s.chips.length (ChipAnalysis.mk 0 0 0))) := by
  unfold analyze_all_slots
  by_cases hs : slots.isEmpty
  · rw [if_pos hs]
    have he : slots = [] := List.isEmpty_iff.mp hs
    subst he
    exact ⟨rfl, fun i => rfl, fun i s h => by simp at h⟩
  · rw [if_neg hs]
    refine ⟨List.length_map _ _, ?_, ?_⟩
    · intro i
      rw [List.getElem?_map]
      cases h : slots[i]?
      · rfl
      · simp [analyze_single_slot_length]
    · intro i s h hzero
      rw [List.getElem?_map, h]
      simp only [Option.map_some']
      rw [analyze_single_slot_default _ _ _ hzero]

/-- C10: for every slot of the input and every chip index within that
slot, the index is below the maximum chip count across slots, which is
the length of the shared statistics table, so the lookup always
succeeds: the fallback branch that scores 0 on a failed lookup is
unreachable. -/
theorem C10_stats_lookup (sqrt : ℚ → ℚ) (slots : List Slot) (s : Slot) (i : ℕ)
    (hs : s ∈ slots) (hi : i < s.chips.length) :
    (cross_slot_stats sqrt slots).length = max_chips slots ∧
    i < max_chips slots ∧
    ∃ ms, (cross_slot_stats sqrt slots)[i]? = some ms := by
  have hlen : (cross_slot_stats sqrt slots).length = max_chips slots := by
    unfold cross_slot_stats temps_by_position
    rw [List.length_map, List.length_map, List.length_range]
  have hle : s.chips.length ≤ max_chips slots := by
    unfold max_chips
    exact List.le_max?_getD_of_mem (List.mem_map_of_mem _ hs)
  have hi2 : i < max_chips slots := lt_of_lt_of_le hi hle
  have hi3 : i < (cross_slot_stats sqrt slots).length := by
    rw [hlen]; exact hi2
  exact ⟨hlen, hi2, ⟨_, List.getElem?_eq_getElem hi3⟩⟩

/-- C7 witness: the theorem applied to a one-slot input with
`chips_per_domain = 0`: the single chip gets the all-zero record. -/
theorem C7_orchestrator_total_witness :
    (analyze_all_slots id [⟨0, [⟨0, 50, 7⟩]⟩] 0).length = 1 ∧
    (analyze_all_slots id [⟨0, [⟨0, 50, 7⟩]⟩] 0)[0]? =
      some (List.replicate 1 (ChipAnalysis.mk 0 0 0)) :=
  have h := C7_orchestrator_total id [⟨0, [⟨0, 50, 7⟩]⟩] 0
  ⟨h.1, h.2.2 0 ⟨0, [⟨0, 50, 7⟩]⟩ rfl (Or.inl rfl)⟩

/-- C10 witness: the theorem applied to a two-slot input at the longer
slot and its last chip index. -/
theorem C10_stats_lookup_witness :
    (cross_slot_stats id [⟨0, [⟨0, 50, 0⟩]⟩, ⟨1, [⟨0, 50, 0⟩, ⟨1, 60, 0⟩]⟩]).length =
      max_chips [⟨0, [⟨0, 50, 0⟩]⟩, ⟨1, [⟨0, 50, 0⟩, ⟨1, 60, 0⟩]⟩] ∧
    1 < max_chips [⟨0, [⟨0, 50, 0⟩]⟩, ⟨1, [⟨0, 50, 0⟩, ⟨1, 60, 0⟩]⟩] ∧
    ∃ ms, (cross_slot_stats id
      [⟨0, [⟨0, 50, 0⟩]⟩, ⟨1, [⟨0, 50, 0⟩, ⟨1, 60, 0⟩]⟩])[1]? = some ms :=
  C10_stats_lookup id [⟨0, [⟨0, 50, 0⟩]⟩, ⟨1, [⟨0, 50, 0⟩, ⟨1, 60, 0⟩]⟩]
    ⟨1, [⟨0, 50, 0⟩, ⟨1, 60, 0⟩]⟩ 1 (by simp) (by norm_num)
